import Mathlib

/-
Verification of the filebuf package (filebuf.go): a bytes.Buffer-like
scratch buffer that spills from memory to an unlinked temporary file once
a configured number of bytes has been written.

Shallow embedding notes.
Bytes are modelled as Nat (only identity of bytes matters).  A Go slice
header for the internal buffer is modelled as its element list plus its
capacity, because the code performs reslicing up to capacity and the
in-bounds conditions of those reslicings are part of what is verified:
a Go slice expression outside bounds is a runtime panic, modelled by a
dedicated panic outcome.  The backing temporary file is modelled as its
byte content plus the OS file position.  Failures of the external
temp-file provider (creation, unlink) are modelled by an explicit
environment; writes to an already created temporary file are modelled as
succeeding.  Readers passed to ReadFrom are modelled as the list of byte
chunks successive Read calls deliver (each call delivers its chunk
truncated to the window offered, end of stream after the last chunk);
the bulk io.Copy transfers are modelled as delivering each chunk whole,
which corresponds to the copy loop always offering a window at least as
large as the chunk.
-/

abbrev Byte := Nat

/-- Content and OS position of the backing temporary file (os.File). -/
structure FileSt where
  content : List Byte
  pos : Nat
deriving DecidableEq

/-- A Go byte-slice header: element list (the length-len part) and capacity. -/
structure BufSlice where
  data : List Byte
  cap : Nat
deriving DecidableEq

/-- The Filebuf struct from filebuf.go.  TempDir and TempFilePattern are
passed opaquely to the temp-file provider and are not modelled. -/
structure Filebuf where
  MaxBufSize : Nat
  IgnoreDeleteErr : Bool
  buf : Option BufSlice
  file : Option FileSt
  off : Int
deriving DecidableEq

/-- New from filebuf.go: a Filebuf with the given spill threshold. -/
def New (size : Nat) : Filebuf :=
  { MaxBufSize := size, IgnoreDeleteErr := false, buf := none, file := none, off := 0 }

/-- Element list of f.buf; a nil slice has no elements. -/
def bufData (f : Filebuf) : List Byte :=
  match f.buf with
  | none => []
  | some b => b.data

/-- Go len(f.buf); len of a nil slice is 0. -/
def bufLen (f : Filebuf) : Nat := (bufData f).length

/-- Behavior of the external temp-file provider and of the unlink call,
the two failure points of moveToFile that are outside the package. -/
structure Env where
  createOk : Bool
  unlinkOk : Bool
deriving DecidableEq

/-- Environment in which temp-file creation and unlink both succeed. -/
def envOk : Env := { createOk := true, unlinkOk := true }

/-- Which phase of promotion failed (the wrapped error messages of moveToFile). -/
inductive ErrKind
  | createErr
  | unlinkErr
deriving DecidableEq

/-- os.File.Write at the current position: overwrite from pos, advance pos.
In every flow of this code pos never exceeds the content length. -/
def fileWrite (fs : FileSt) (p : List Byte) : FileSt :=
  { content := fs.content.take fs.pos ++ p ++ fs.content.drop (fs.pos + p.length),
    pos := fs.pos + p.length }

/-- Result of moveToFile: on failure the (mutated) receiver is returned,
since moveToFile assigns f.file before the unlink check; on success the
new backing file already holds a copy of the memory region. -/
inductive MoveRes
  | fail (f : Filebuf) (e : ErrKind)
  | ok (fs : FileSt)
deriving DecidableEq

/-- moveToFile from filebuf.go: create a temp file, unlink it, copy the
memory region into it.  On a createErr f.file stays nil; on an unlinkErr
f.file has already been set to the fresh (empty) file. -/
def moveToFile (env : Env) (f : Filebuf) : MoveRes :=
  if env.createOk = false then
    .fail f .createErr
  else if env.unlinkOk = false ∧ f.IgnoreDeleteErr = false then
    .fail { f with file := some { content := [], pos := 0 } } .unlinkErr
  else
    .ok { content := bufData f, pos := (bufData f).length }

/-- appendBuffer from filebuf.go.  It reslices f.buf up to len+len(p),
which is a runtime panic (modelled as none) when that exceeds the
capacity; the code comments claim this is always called within capacity. -/
def appendBuffer (f : Filebuf) (p : List Byte) : Option Filebuf :=
  let b := match f.buf with
    | none => ({ data := [], cap := f.MaxBufSize } : BufSlice)
    | some b => b
  if b.data.length + p.length ≤ b.cap then
    some { f with buf := some { data := b.data ++ p, cap := b.cap } }
  else
    none

/-- Outcome of Write: bytes accepted, or an error with the mutated
receiver, or a runtime panic. -/
inductive WRes
  | ok (f : Filebuf) (n : Nat)
  | err (f : Filebuf) (e : ErrKind)
  | panic
deriving DecidableEq

/-- Write from filebuf.go: delegate to the file if present; promote when
a positive threshold would be exceeded; otherwise append in memory. -/
def Write (env : Env) (f : Filebuf) (p : List Byte) : WRes :=
  match f.file with
  | some fs => .ok { f with file := some (fileWrite fs p) } p.length
  | none =>
    if 0 < f.MaxBufSize ∧ f.MaxBufSize < bufLen f + p.length then
      match moveToFile env f with
      | .fail f' e => .err f' e
      | .ok fs => .ok { f with buf := none, file := some (fileWrite fs p) } p.length
    else
      match appendBuffer f p with
      | some f' => .ok f' p.length
      | none => .panic

/-- Error component of a Read result: nil, io.EOF, or the negative-offset
error of os.File.ReadAt. -/
inductive RErr
  | noe
  | eof
  | negOff
deriving DecidableEq

/-- os.File.ReadAt semantics: error on negative offset; otherwise read
min(len(p), size-off) bytes and report io.EOF exactly when fewer bytes
than requested were read. -/
def fileReadAt (content : List Byte) (k : Nat) (off : Int) : List Byte × RErr :=
  if off < 0 then
    ([], .negOff)
  else
    let n := min k (content.length - off.toNat)
    ((content.drop off.toNat).take n, if n < k then .eof else .noe)

/-- Outcome of Read: mutated receiver, bytes read and error component,
or a runtime panic (copyBuffer slicing with a negative cursor). -/
inductive RRes
  | ok (f : Filebuf) (b : List Byte) (e : RErr)
  | panic
deriving DecidableEq

/-- Read from filebuf.go: positioned file read at the cursor when
file-backed; otherwise EOF at or past the end of the memory region, else
copyBuffer clamped to the available bytes.  The cursor advances by the
number of bytes read. -/
def Read (f : Filebuf) (k : Nat) : RRes :=
  match f.file with
  | some fs =>
    let r := fileReadAt fs.content k f.off
    .ok { f with off := f.off + (r.1.length : Int) } r.1 r.2
  | none =>
    if (bufLen f : Int) ≤ f.off then
      .ok f [] .eof
    else if f.off < 0 then
      .panic
    else
      let n := min k (bufLen f - f.off.toNat)
      .ok { f with off := f.off + (n : Int) } (((bufData f).drop f.off.toNat).take n) .noe

/-- ReadAt from filebuf.go: save the cursor, set it to pos, delegate to
Read, restore the saved cursor. -/
def ReadAt (f : Filebuf) (k : Nat) (pos : Int) : RRes :=
  match Read { f with off := pos } k with
  | .panic => .panic
  | .ok g b e => .ok { g with off := f.off } b e

/-- Rewind from filebuf.go: cursor to 0 and, when file-backed, seek the
file to its start (the seek is modelled as succeeding). -/
def Rewind (f : Filebuf) : Filebuf :=
  { f with off := 0,
           file := f.file.map (fun fs => { content := fs.content, pos := 0 }) }

/-- Clone from filebuf.go, success case: a struct copy sharing the memory
region, with a duplicated handle to the same backing file.  The byte
content seen through the duplicated handle is the same; the model gives
the clone its own position field, which the claims proved here never
consult (reads are positioned and use the per-instance cursor). -/
def Clone (f : Filebuf) : Filebuf :=
  { f with file := f.file.map (fun fs => { content := fs.content, pos := fs.pos }) }

/-- Close from filebuf.go: closing the file handle does not clear f.file;
in the memory case the region is dropped. -/
def Close (f : Filebuf) : Filebuf :=
  match f.file with
  | some _ => f
  | none => { f with buf := none }

/-- Outcome of WriteTo (only the state effect and emitted bytes are
modelled; the sink is assumed to accept everything). -/
inductive WTRes
  | ok (f : Filebuf) (b : List Byte)
  | err (f : Filebuf)
  | panic
deriving DecidableEq

/-- WriteTo from filebuf.go: seek the file to the cursor then stream to
the end (file position ends at the content length), or write the memory
region from the cursor (a cursor outside the region is a Go slice fault). -/
def WriteTo (f : Filebuf) : WTRes :=
  match f.file with
  | some fs =>
    if f.off < 0 then
      .err f
    else
      .ok { f with file := some { content := fs.content,
                                  pos := max f.off.toNat fs.content.length } }
          (fs.content.drop f.off.toNat)
  | none =>
    if 0 ≤ f.off ∧ f.off ≤ (bufLen f : Int) then
      .ok f ((bufData f).drop f.off.toNat)
    else
      .panic

/-- A source stream for ReadFrom: the byte chunks its successive Read
calls deliver, each truncated to the window offered; after the last
chunk it reports end of stream. -/
abbrev Reader := List (List Byte)

/-- io.Copy from a source into the backing file: each chunk is delivered
whole (the copy loop always offers a large window) and appended at the
file position.  Returns the new file state and the byte count. -/
def copyToFile (fs : FileSt) : Reader → FileSt × Nat
  | [] => (fs, 0)
  | c :: rest =>
    let r := copyToFile (fileWrite fs c) rest
    (r.1, c.length + r.2)

/-- The fill loop of ReadFrom.  Each iteration offers the reader the
window f.buf[len(f.buf) : cap(f.buf)-len(f.buf)] — exactly as written in
the source, with the upper bound cap-len rather than cap — so the slice
expression panics (none) as soon as the lower bound len exceeds the
upper bound cap-len.  On end of stream it returns the filled data with
hitCap false; when the region reaches capacity it breaks out with the
rest of the reader and hitCap true.  The running total counts the bytes
delivered by the reader. -/
def rfLoop (src : Reader) (d : List Byte) (capb : Nat) (tot : Nat) :
    Option (List Byte × Nat × Reader × Bool) :=
  if capb - d.length < d.length then
    none
  else
    match src with
    | [] => some (d, tot, [], false)
    | c :: rest =>
      let got := c.take (capb - d.length - d.length)
      let d' := d ++ got
      if d'.length = capb then
        some (d', tot + got.length, rest, true)
      else
        rfLoop rest d' capb (tot + got.length)

/-- Outcome of ReadFrom: byte count transferred, or an error with the
mutated receiver, or a runtime panic from the fill loop. -/
inductive RFRes
  | ok (f : Filebuf) (n : Nat)
  | err (f : Filebuf) (n : Nat) (e : ErrKind)
  | panic
deriving DecidableEq

/-- ReadFrom from filebuf.go: stream into the file if present; with a
zero threshold accumulate everything in memory through a bytes.Buffer;
otherwise run the fill loop and, if capacity was hit, promote and stream
the remainder into the file, returning the remainder count plus the
length of the memory region at promotion time. -/
def ReadFrom (env : Env) (f : Filebuf) (src : Reader) : RFRes :=
  match f.file with
  | some fs =>
    let r := copyToFile fs src
    .ok { f with file := some r.1 } r.2
  | none =>
    if f.MaxBufSize = 0 then
      let bs := src.foldr (fun c acc => c ++ acc) []
      .ok { f with buf := some { data := bufData f ++ bs, cap := (bufData f ++ bs).length } }
          bs.length
    else
      let cap0 := match f.buf with
        | none => f.MaxBufSize
        | some b => b.cap
      match rfLoop src (bufData f) cap0 0 with
      | none => .panic
      | some (d, tot, _, false) =>
        .ok { f with buf := some { data := d, cap := cap0 } } tot
      | some (d, _, rest, true) =>
        let m := d.length
        match moveToFile env { f with buf := some { data := d, cap := cap0 } } with
        | .fail f' e => .err f' 0 e
        | .ok fs =>
          let r := copyToFile fs rest
          .ok { f with buf := none, file := some r.1 } (r.2 + m)

/-- Concatenation of a list of chunks. -/
def flat : List (List Byte) → List Byte
  | [] => []
  | c :: cs => c ++ flat cs

/-- Outcome of a sequence of Write calls, with the accumulated count. -/
inductive WARes
  | ok (f : Filebuf) (n : Nat)
  | err (f : Filebuf) (n : Nat) (e : ErrKind)
  | panic
deriving DecidableEq

/-- Apply Write once per chunk, stopping at an error or panic. -/
def writeAll (env : Env) (f : Filebuf) : List (List Byte) → WARes
  | [] => .ok f 0
  | p :: ps =>
    match Write env f p with
    | .panic => .panic
    | .err f' e => .err f' 0 e
    | .ok f' m =>
      match writeAll env f' ps with
      | .panic => .panic
      | .err f'' n e => .err f'' (m + n) e
      | .ok f'' n => .ok f'' (m + n)

/-- Read repeatedly with destination size k until the end-of-stream
signal, collecting the bytes (including any final bytes delivered
together with the signal, as the io convention allows).  Returns none on
a panic, an unexpected error, or fuel exhaustion. -/
def readAll (f : Filebuf) (k : Nat) : Nat → Option (List Byte × Filebuf)
  | 0 => none
  | fuel + 1 =>
    match Read f k with
    | .panic => none
    | .ok g b .eof => some (b, g)
    | .ok _ _ .negOff => none
    | .ok g b .noe =>
      match readAll g k fuel with
      | none => none
      | some (bs, h) => some (b ++ bs, h)

/-- Operations a caller can apply to one Filebuf instance. -/
inductive Op
  | write (p : List Byte)
  | read (k : Nat)
  | readAt (k : Nat) (pos : Int)
  | rewind
  | readFrom (src : Reader)
  | writeTo
  | close

/-- One operation applied to the state; none when the program panics
(error returns leave a state the program continues from). -/
def step (env : Env) (f : Filebuf) : Op → Option Filebuf
  | .write p =>
    match Write env f p with
    | .ok f' _ => some f'
    | .err f' _ => some f'
    | .panic => none
  | .read k =>
    match Read f k with
    | .ok f' _ _ => some f'
    | .panic => none
  | .readAt k pos =>
    match ReadAt f k pos with
    | .ok f' _ _ => some f'
    | .panic => none
  | .rewind => some (Rewind f)
  | .readFrom src =>
    match ReadFrom env f src with
    | .ok f' _ => some f'
    | .err f' _ _ => some f'
    | .panic => none
  | .writeTo =>
    match WriteTo f with
    | .ok f' _ => some f'
    | .err f' => some f'
    | .panic => none
  | .close => some (Close f)

/-- A sequence of operations applied to the state. -/
def exec (env : Env) (f : Filebuf) : List Op → Option Filebuf
  | [] => some f
  | op :: ops =>
    match step env f op with
    | none => none
    | some f' => exec env f' ops

/-- The logical byte stream held by the buffer. -/
def contents (f : Filebuf) : List Byte :=
  match f.file with
  | some fs => fs.content
  | none => bufData f

/-- Well-formed states reached from New T by successful writes: either
memory-backed with capacity T and within capacity, or file-backed with
the file position at the end and the memory region dropped. -/
def GoodW (T : Nat) (f : Filebuf) : Prop :=
  f.MaxBufSize = T ∧
  ((f.file = none ∧
      (f.buf = none ∨ ∃ d, f.buf = some { data := d, cap := T } ∧ d.length ≤ T)) ∨
   (∃ c, f.file = some { content := c, pos := c.length } ∧ f.buf = none))

/-- The exactly-one-representation invariant: a file-backed buffer has a
nil memory region. -/
def RepInv (f : Filebuf) : Prop :=
  f.file ≠ none → f.buf = none

/-- Concrete memory-backed state used by the witness of the ReadAt frame
property: two bytes in memory, cursor already advanced to 1. -/
def wit7 : Filebuf :=
  { MaxBufSize := 4, IgnoreDeleteErr := false, buf := some { data := [3, 4], cap := 2 },
    file := none, off := 1 }

/-- Concrete file-backed state used by the witness of the end-of-stream
semantics: two bytes on file, cursor at the start. -/
def wit6 : Filebuf :=
  { MaxBufSize := 4, IgnoreDeleteErr := false, buf := none,
    file := some { content := [7, 8], pos := 2 }, off := 0 }

/-- Concrete memory-backed state used by the witness of clone
independence: one byte in memory, cursor at the start. -/
def wit8 : Filebuf :=
  { MaxBufSize := 4, IgnoreDeleteErr := false, buf := some { data := [5], cap := 1 },
    file := none, off := 0 }

/-- Concrete state for the promotion-failure counterexample: one byte in
memory with threshold 2, so a two-byte write triggers promotion. -/
def cex4 : Filebuf :=
  { MaxBufSize := 2, IgnoreDeleteErr := false, buf := some { data := [5], cap := 2 },
    file := none, off := 0 }

/-- Concrete memory-backed state used by the witness of the amended
promotion-failure property. -/
def wit4 : Filebuf :=
  { MaxBufSize := 1, IgnoreDeleteErr := false, buf := some { data := [5], cap := 1 },
    file := none, off := 0 }

/-- State reached from New 1 by writing one byte and then attempting a
promoting write whose unlink step fails: both the memory region and the
file handle are populated. -/
def cex5res : Filebuf :=
  { MaxBufSize := 1, IgnoreDeleteErr := false, buf := some { data := [1], cap := 1 },
    file := some { content := [], pos := 0 }, off := 0 }

/-- State reached from New 1 by one promoting two-byte write under the
error-free environment. -/
def wit5 : Filebuf :=
  { MaxBufSize := 1, IgnoreDeleteErr := false, buf := none,
    file := some { content := [1, 2], pos := 2 }, off := 0 }

theorem Read_ok_state {f : Filebuf} {k : Nat} {g : Filebuf} {b : List Byte} {e : RErr}
    (h : Read f k = .ok g b e) : g = { f with off := f.off + (b.length : Int) } := by
  obtain ⟨M, I, bo, flo, o⟩ := f
  cases flo with
  | some fs =>
    simp only [Read, RRes.ok.injEq] at h
    obtain ⟨h1, h2, _⟩ := h
    subst h2
    exact h1.symm
  | none =>
    simp only [Read] at h
    by_cases h1 : (bufLen ⟨M, I, bo, none, o⟩ : Int) ≤ o
    · rw [if_pos h1] at h
      simp only [RRes.ok.injEq] at h
      obtain ⟨hg, hb, _⟩ := h
      subst hg; subst hb
      simp
    · rw [if_neg h1] at h
      by_cases h2 : o < 0
      · rw [if_pos h2] at h
        exact absurd h (by simp)
      · rw [if_neg h2] at h
        simp only [RRes.ok.injEq] at h
        obtain ⟨hg, hb, _⟩ := h
        subst hg; subst hb
        have hlen : ((bufData ⟨M, I, bo, none, o⟩).drop o.toNat).length =
            bufLen ⟨M, I, bo, none, o⟩ - o.toNat := by
          simp [bufLen]
        simp only [List.length_take, hlen]
        have : min (min k (bufLen ⟨M, I, bo, none, o⟩ - o.toNat))
            (bufLen ⟨M, I, bo, none, o⟩ - o.toNat) =
            min k (bufLen ⟨M, I, bo, none, o⟩ - o.toNat) := by omega
        rw [this]

theorem Read_frame {f : Filebuf} {k : Nat} {g : Filebuf} {b : List Byte} {e : RErr}
    (h : Read f k = .ok g b e) :
    g.buf = f.buf ∧ g.file = f.file ∧ g.MaxBufSize = f.MaxBufSize := by
  rw [Read_ok_state h]
  exact ⟨rfl, rfl, rfl⟩

theorem ReadAt_ok_state {f : Filebuf} {k : Nat} {pos : Int} {g : Filebuf} {b : List Byte}
    {e : RErr} (h : ReadAt f k pos = .ok g b e) :
    g = f ∧ Read { f with off := pos } k = .ok { f with off := pos + (b.length : Int) } b e := by
  obtain ⟨M, I, bo, flo, o⟩ := f
  unfold ReadAt at h
  cases hr : Read { MaxBufSize := M, IgnoreDeleteErr := I, buf := bo, file := flo, off := pos } k
    with
  | panic => rw [hr] at h; exact absurd h (by simp)
  | ok g0 b0 e0 =>
    rw [hr] at h
    simp only [RRes.ok.injEq] at h
    obtain ⟨h1, h2, h3⟩ := h
    subst h2; subst h3
    have hs := Read_ok_state hr
    subst hs
    constructor
    · exact h1.symm
    · rfl

theorem Clone_eq (f : Filebuf) : Clone f = f := by
  cases f with
  | mk M I b fl o =>
    cases fl with
    | none => rfl
    | some fs => cases fs; rfl

/-- C7: ReadAt returns exactly the count, bytes and error that Read would
return with the cursor at pos, and the state ReadAt returns is the
receiver unchanged: the cursor is restored and Read itself mutates
nothing but the cursor. -/
theorem c7_readAt_frame : ∀ (f : Filebuf) (k : Nat) (pos : Int) (g : Filebuf) (b : List Byte)
    (e : RErr), ReadAt f k pos = .ok g b e →
    g = f ∧ Read { f with off := pos } k = .ok { f with off := pos + (b.length : Int) } b e :=
  fun _ _ _ _ _ _ h => ReadAt_ok_state h

theorem c7_witness :
    (wit7 = wit7) ∧
    Read { wit7 with off := 0 } 1 =
      .ok { wit7 with off := 0 + (([3] : List Byte).length : Int) } [3] RErr.noe :=
  c7_readAt_frame wit7 1 0 wit7 [3] RErr.noe (by decide)

/-- C6 as stated is refuted: this file-backed Read copies one byte and
still returns the end-of-stream signal paired with it, because
os.File.ReadAt reports io.EOF whenever fewer bytes than requested were
read. -/
theorem c6_counterexample :
    Read { MaxBufSize := 4, IgnoreDeleteErr := false, buf := none,
           file := some { content := [7], pos := 1 }, off := 0 } 2 =
      .ok { MaxBufSize := 4, IgnoreDeleteErr := false, buf := none,
            file := some { content := [7], pos := 1 }, off := 1 } [7] RErr.eof := by
  decide

/-- C6 amended: for a nonnegative cursor, a memory-backed Read signals
end-of-stream exactly when the cursor is at or beyond the region length,
and then with zero bytes; a file-backed Read returns
min(len(dest), size - cursor) bytes and signals end-of-stream exactly
when it returns fewer bytes than requested, possibly paired with data.
Neither path produces an error other than the end-of-stream signal. -/
theorem c6_eof_semantics : ∀ (f : Filebuf) (k : Nat) (g : Filebuf) (b : List Byte) (e : RErr),
    0 ≤ f.off → Read f k = .ok g b e →
    (f.file = none →
      ((e = RErr.eof ↔ (bufLen f : Int) ≤ f.off) ∧ (e = RErr.eof → b = []) ∧ e ≠ RErr.negOff)) ∧
    (∀ fs, f.file = some fs →
      (b.length = min k (fs.content.length - f.off.toNat) ∧
       (e = RErr.eof ↔ b.length < k) ∧ e ≠ RErr.negOff)) := by
  intro f k g b e hoff h
  obtain ⟨M, I, bo, flo, o⟩ := f
  have ho : (0 : Int) ≤ o := hoff
  cases flo with
  | none =>
    refine ⟨fun _ => ?_, fun fs hfs => by simp at hfs⟩
    simp only [Read] at h
    by_cases h1 : (bufLen ⟨M, I, bo, none, o⟩ : Int) ≤ o
    · rw [if_pos h1] at h
      simp only [RRes.ok.injEq] at h
      obtain ⟨_, hb, he⟩ := h
      subst hb; subst he
      refine ⟨by simpa using h1, fun _ => rfl, by simp⟩
    · rw [if_neg h1, if_neg (by omega : ¬ o < 0)] at h
      simp only [RRes.ok.injEq] at h
      obtain ⟨_, hb, he⟩ := h
      subst hb; subst he
      refine ⟨by simpa using h1, by simp, by simp⟩
  | some fs' =>
    refine ⟨fun hn => by simp at hn, fun fs hfs => ?_⟩
    simp only [Option.some.injEq] at hfs
    subst hfs
    simp only [Read] at h
    unfold fileReadAt at h
    rw [if_neg (by omega : ¬ o < 0)] at h
    simp only [RRes.ok.injEq] at h
    obtain ⟨_, hb, he⟩ := h
    subst hb; subst he
    have hlen : ((fs'.content.drop o.toNat).take
        (min k (fs'.content.length - o.toNat))).length =
        min k (fs'.content.length - o.toNat) := by
      rw [List.length_take, List.length_drop]
      omega
    refine ⟨hlen, ?_, ?_⟩
    · rw [hlen]
      by_cases h2 : min k (fs'.content.length - o.toNat) < k
      · rw [if_pos h2]
        simp [h2]
      · rw [if_neg h2]
        simp [h2]
    · by_cases h2 : min k (fs'.content.length - o.toNat) < k
      · rw [if_pos h2]; simp
      · rw [if_neg h2]; simp

theorem c6_witness :
    (([7, 8] : List Byte).length =
      min 5 (([7, 8] : List Byte).length - (0 : Int).toNat)) ∧
    (RErr.eof = RErr.eof ↔ ([7, 8] : List Byte).length < 5) ∧ RErr.eof ≠ RErr.negOff :=
  (c6_eof_semantics wit6 5 { wit6 with off := 2 } [7, 8] RErr.eof
    (by decide) (by decide)).2 { content := [7, 8], pos := 2 } rfl

/-- C8: a clone observed through Read is indistinguishable from the
original at clone time — reads from the clone's own cursor, and full
reads after Rewind, yield exactly the original's bytes — and Read
mutates nothing but the per-instance cursor (the shared memory region
and backing-file content are untouched), which is why draining the
original afterwards cannot change what the clone reads. -/
theorem c8_clone_independence : ∀ (f : Filebuf) (k fuel : Nat) (g : Filebuf) (b : List Byte)
    (e : RErr),
    readAll (Clone f) k fuel = readAll f k fuel ∧
    readAll (Rewind (Clone f)) k fuel = readAll (Rewind f) k fuel ∧
    (Read f k = .ok g b e → g = { f with off := f.off + (b.length : Int) }) := by
  intro f k fuel g b e
  exact ⟨by rw [Clone_eq], by rw [Clone_eq], fun h => Read_ok_state h⟩

theorem c8_witness :
    readAll (Clone wit8) 1 2 = readAll wit8 1 2 ∧
    ({ wit8 with off := (1 : Int) } =
      { wit8 with off := (0 : Int) + (([5] : List Byte).length : Int) }) :=
  ⟨(c8_clone_independence wit8 1 2 { wit8 with off := (1 : Int) } [5] RErr.noe).1,
   (c8_clone_independence wit8 1 2 { wit8 with off := (1 : Int) } [5] RErr.noe).2.2 (by decide)⟩

/-- C3: with a zero threshold, Write of a single byte reaches appendBuffer,
which reslices the zero-capacity nil buffer beyond its capacity — a
runtime panic — instead of appending and returning (1, nil) as the spec
requires for the memory-only configuration. -/
theorem c3_zero_threshold_write_panics : Write envOk (New 0) [42] = .panic := rfl

/-- C9: with threshold 6, a source whose first read delivers 4 of the 6
offered bytes makes the next iteration of the fill loop evaluate the
window with lower bound 4 and upper bound 6-4 = 2, a runtime panic,
instead of filling the region to capacity and promoting. -/
theorem c9_fill_then_promote_panics :
    ReadFrom envOk (New 6) [[1, 2, 3, 4], [5, 6]] = .panic := rfl

/-- C10: with threshold 4, a source whose first read delivers 3 of the 4
offered bytes makes the fill loop evaluate the slice window
f.buf[3 : 4-3], whose lower bound exceeds its upper bound — the claimed
in-bounds property of every slice expression of the loop fails. -/
theorem c10_fill_loop_bounds_fault :
    ReadFrom envOk (New 4) [[1, 2, 3], [4]] = .panic := rfl

/-- C4 as stated is refuted: when the unlink step of a promotion fails,
moveToFile has already installed the fresh file handle, and Write
returns the error without restoring the in-memory representation — the
resulting state has a (empty) file handle set alongside the old memory
contents, not the unchanged prior state the claim requires. -/
theorem c4_counterexample :
    Write { createOk := true, unlinkOk := false } cex4 [9, 9] =
      .err { cex4 with file := some { content := [], pos := 0 } } ErrKind.unlinkErr ∧
    ({ cex4 with file := some { content := [], pos := 0 } } : Filebuf).file ≠ none := by
  decide

/-- C4 amended: when a Write triggers promotion and temp-file creation
fails, the call errors and the buffer's prior in-memory state is exactly
unchanged; when instead the unlink step fails (with IgnoreDeleteErr
unset), the call errors but leaves the fresh empty file handle installed
while the memory region still holds the prior bytes. -/
theorem c4_promotion_failure : ∀ (env : Env) (f : Filebuf) (p : List Byte),
    f.file = none → 0 < f.MaxBufSize → f.MaxBufSize < bufLen f + p.length →
    (env.createOk = false → Write env f p = .err f ErrKind.createErr) ∧
    (env.createOk = true → env.unlinkOk = false → f.IgnoreDeleteErr = false →
      Write env f p =
        .err { f with file := some { content := [], pos := 0 } } ErrKind.unlinkErr) := by
  intro env f p hfile hM hlt
  obtain ⟨M, I, bo, flo, o⟩ := f
  have hflo : flo = none := hfile
  subst hflo
  simp only [Write]
  rw [if_pos ⟨hM, hlt⟩]
  constructor
  · intro hc
    unfold moveToFile
    rw [if_pos hc]
  · intro h1 h2 h3
    have hIf : I = false := h3
    unfold moveToFile
    rw [if_neg (by simp [h1]), if_pos ⟨h2, hIf⟩]

theorem c4_witness :
    Write { createOk := false, unlinkOk := true } wit4 [6] = .err wit4 ErrKind.createErr ∧
    Write { createOk := true, unlinkOk := false } wit4 [6] =
      .err { wit4 with file := some { content := [], pos := 0 } } ErrKind.unlinkErr :=
  ⟨(c4_promotion_failure { createOk := false, unlinkOk := true } wit4 [6]
      rfl (by decide) (by decide)).1 rfl,
   (c4_promotion_failure { createOk := true, unlinkOk := false } wit4 [6]
      rfl (by decide) (by decide)).2 rfl rfl rfl⟩

/-- C5 as stated is refuted: a sequence of two writes whose second one
triggers a promotion with a failing unlink reaches a state where the
file handle is set and the memory region still holds data — the buffer
is file-backed from then on, yet the memory region was not cleared. -/
theorem c5_counterexample :
    exec { createOk := true, unlinkOk := false } (New 1) [Op.write [1], Op.write [2]] =
      some cex5res ∧ cex5res.file ≠ none ∧ cex5res.buf ≠ none := by
  decide

theorem moveToFile_envOk (f : Filebuf) :
    moveToFile envOk f = .ok { content := bufData f, pos := (bufData f).length } := rfl

theorem appendBuffer_some_state {f f' : Filebuf} {p : List Byte}
    (h : appendBuffer f p = some f') : f'.file = f.file := by
  unfold appendBuffer at h
  split at h
  · dsimp only at h
    split at h
    · simp only [Option.some.injEq] at h
      subst h
      rfl
    · simp at h
  · dsimp only at h
    split at h
    · simp only [Option.some.injEq] at h
      subst h
      rfl
    · simp at h

theorem Write_envOk_inv {f g : Filebuf} {p : List Byte} {n : Nat}
    (h : Write envOk f p = .ok g n) (hI : RepInv f) :
    RepInv g ∧ (f.file ≠ none → g.file ≠ none) := by
  obtain ⟨M, I, bo, flo, o⟩ := f
  cases flo with
  | some fs =>
    simp only [Write, WRes.ok.injEq] at h
    obtain ⟨hg, _⟩ := h
    subst hg
    refine ⟨fun _ => ?_, fun _ => by simp⟩
    have := hI (by simp)
    simpa using this
  | none =>
    simp only [Write] at h
    split at h
    · rw [moveToFile_envOk] at h
      simp only [WRes.ok.injEq] at h
      obtain ⟨hg, _⟩ := h
      subst hg
      exact ⟨fun _ => rfl, fun hn => by simp⟩
    · cases hab : appendBuffer { MaxBufSize := M, IgnoreDeleteErr := I, buf := bo, file := none, off := o } p with
      | none =>
        rw [hab] at h
        simp at h
      | some f' =>
        rw [hab] at h
        simp only [WRes.ok.injEq] at h
        obtain ⟨hg, _⟩ := h
        subst hg
        have hf := appendBuffer_some_state hab
        exact ⟨fun hn => absurd hf (by simpa using hn), fun hn => absurd rfl hn⟩

theorem Write_envOk_no_err {f g : Filebuf} {p : List Byte} {e : ErrKind} :
    Write envOk f p ≠ .err g e := by
  obtain ⟨M, I, bo, flo, o⟩ := f
  cases flo with
  | some fs => simp [Write]
  | none =>
    simp only [Write]
    split
    · rw [moveToFile_envOk]
      simp
    · unfold appendBuffer
      split <;> simp

theorem ReadFrom_envOk_inv {f g : Filebuf} {src : Reader} {n : Nat}
    (h : ReadFrom envOk f src = .ok g n) (hI : RepInv f) :
    RepInv g ∧ (f.file ≠ none → g.file ≠ none) := by
  obtain ⟨M, I, bo, flo, o⟩ := f
  cases flo with
  | some fs =>
    simp only [ReadFrom, RFRes.ok.injEq] at h
    obtain ⟨hg, _⟩ := h
    subst hg
    refine ⟨fun _ => ?_, fun _ => by simp⟩
    have := hI (by simp)
    simpa using this
  | none =>
    simp only [ReadFrom] at h
    split at h
    · simp only [RFRes.ok.injEq] at h
      obtain ⟨hg, _⟩ := h
      subst hg
      exact ⟨fun hn => by simp at hn, fun hn => by simp at hn⟩
    · split at h
      · exact absurd h (by simp)
      · simp only [RFRes.ok.injEq] at h
        obtain ⟨hg, _⟩ := h
        subst hg
        exact ⟨fun hn => by simp at hn, fun hn => by simp at hn⟩
      · rw [moveToFile_envOk] at h
        simp only [RFRes.ok.injEq] at h
        obtain ⟨hg, _⟩ := h
        subst hg
        exact ⟨fun _ => rfl, fun hn => by simp⟩

theorem ReadFrom_envOk_no_err {f g : Filebuf} {src : Reader} {n : Nat} {e : ErrKind} :
    ReadFrom envOk f src ≠ .err g n e := by
  obtain ⟨M, I, bo, flo, o⟩ := f
  cases flo with
  | some fs => simp [ReadFrom]
  | none =>
    simp only [ReadFrom]
    split
    · simp
    · split
      · simp
      · simp
      · rw [moveToFile_envOk]
        simp

theorem WriteTo_ok_state {f g : Filebuf} {b : List Byte} (h : WriteTo f = .ok g b) :
    g.buf = f.buf ∧ (f.file = none → g.file = none) ∧ (f.file ≠ none → g.file ≠ none) := by
  obtain ⟨M, I, bo, flo, o⟩ := f
  cases flo with
  | some fs =>
    simp only [WriteTo] at h
    split at h
    · simp at h
    · simp only [WTRes.ok.injEq] at h
      obtain ⟨hg, _⟩ := h
      subst hg
      exact ⟨rfl, fun hn => by simp at hn, fun _ => by simp⟩
  | none =>
    simp only [WriteTo] at h
    split at h
    · simp only [WTRes.ok.injEq] at h
      obtain ⟨hg, _⟩ := h
      subst hg
      exact ⟨rfl, fun _ => rfl, fun hn => absurd rfl hn⟩
    · simp at h

theorem WriteTo_err_state {f g : Filebuf} (h : WriteTo f = .err g) : g = f := by
  obtain ⟨M, I, bo, flo, o⟩ := f
  cases flo with
  | some fs =>
    simp only [WriteTo] at h
    split at h
    · simp only [WTRes.err.injEq] at h
      exact h.symm
    · simp at h
  | none =>
    simp only [WriteTo] at h
    split at h
    · simp at h
    · simp at h

theorem step_envOk_inv {f g : Filebuf} {op : Op} (hI : RepInv f)
    (h : step envOk f op = some g) : RepInv g ∧ (f.file ≠ none → g.file ≠ none) := by
  cases op with
  | write p =>
    simp only [step] at h
    cases hw : Write envOk f p with
    | ok f' n =>
      rw [hw] at h
      simp only [Option.some.injEq] at h
      subst h
      exact Write_envOk_inv hw hI
    | err f' e =>
      exact absurd hw Write_envOk_no_err
    | panic =>
      rw [hw] at h
      simp at h
  | read k =>
    simp only [step] at h
    cases hr : Read f k with
    | ok f' b e =>
      rw [hr] at h
      simp only [Option.some.injEq] at h
      subst h
      rw [Read_ok_state hr]
      exact ⟨fun hn => hI hn, fun hn => hn⟩
    | panic =>
      rw [hr] at h
      simp at h
  | readAt k pos =>
    simp only [step] at h
    cases hr : ReadAt f k pos with
    | ok f' b e =>
      rw [hr] at h
      simp only [Option.some.injEq] at h
      subst h
      rw [(ReadAt_ok_state hr).1]
      exact ⟨hI, fun hn => hn⟩
    | panic =>
      rw [hr] at h
      simp at h
  | rewind =>
    simp only [step, Option.some.injEq] at h
    subst h
    obtain ⟨M, I, bo, flo, o⟩ := f
    cases flo with
    | some fs =>
      refine ⟨fun _ => ?_, fun _ => by simp [Rewind]⟩
      have := hI (by simp)
      simpa [Rewind] using this
    | none =>
      exact ⟨fun hn => by simp [Rewind] at hn, fun hn => by simp at hn⟩
  | readFrom src =>
    simp only [step] at h
    cases hr : ReadFrom envOk f src with
    | ok f' n =>
      rw [hr] at h
      simp only [Option.some.injEq] at h
      subst h
      exact ReadFrom_envOk_inv hr hI
    | err f' n e =>
      exact absurd hr ReadFrom_envOk_no_err
    | panic =>
      rw [hr] at h
      simp at h
  | writeTo =>
    simp only [step] at h
    cases hw : WriteTo f with
    | ok f' b =>
      rw [hw] at h
      simp only [Option.some.injEq] at h
      subst h
      have hs := WriteTo_ok_state hw
      refine ⟨fun hn => ?_, fun hn => hs.2.2 hn⟩
      rw [hs.1]
      exact hI (fun hfn => hn (hs.2.1 hfn))
    | err f' =>
      rw [hw] at h
      simp only [Option.some.injEq] at h
      subst h
      rw [WriteTo_err_state hw]
      exact ⟨hI, fun hn => hn⟩
    | panic =>
      rw [hw] at h
      simp at h
  | close =>
    simp only [step, Option.some.injEq] at h
    subst h
    obtain ⟨M, I, bo, flo, o⟩ := f
    cases flo with
    | some fs =>
      refine ⟨fun _ => ?_, fun _ => by simp [Close]⟩
      have := hI (by simp)
      simpa [Close] using this
    | none =>
      exact ⟨fun hn => by simp [Close] at hn, fun hn => by simp at hn⟩

theorem exec_envOk_inv : ∀ (ops : List Op) (f g : Filebuf), RepInv f →
    exec envOk f ops = some g → RepInv g ∧ (f.file ≠ none → g.file ≠ none) := by
  intro ops
  induction ops with
  | nil =>
    intro f g hI h
    simp only [exec, Option.some.injEq] at h
    subst h
    exact ⟨hI, fun hn => hn⟩
  | cons op rest ih =>
    intro f g hI h
    simp only [exec] at h
    cases hs : step envOk f op with
    | none => rw [hs] at h; simp at h
    | some f' =>
      rw [hs] at h
      have h1 := step_envOk_inv hI hs
      have h2 := ih f' g h1.1 h
      exact ⟨h2.1, fun hn => h2.2 (h1.2 hn)⟩

/-- C5 amended: under the error-free environment the invariant holds for
every reachable state — once the buffer is file-backed its memory region
is nil and stays nil, and the file-backed transition is never reversed;
when a promotion's unlink step fails, however, the buffer can be left
with both the file handle set and the memory region populated (see the
counterexample). -/
theorem c5_representation_invariant : ∀ (T : Nat) (ops : List Op) (f : Filebuf),
    exec envOk (New T) ops = some f →
    (f.file ≠ none → f.buf = none) ∧
    (f.file ≠ none → ∀ (ops' : List Op) (g : Filebuf),
      exec envOk f ops' = some g → g.file ≠ none) := by
  intro T ops f h
  have h0 : RepInv (New T) := fun hn => absurd rfl hn
  have h1 := exec_envOk_inv ops (New T) f h0 h
  exact ⟨h1.1, fun hf ops' g hg => (exec_envOk_inv ops' f g h1.1 hg).2 hf⟩

theorem c5_witness :
    (wit5.file ≠ none → wit5.buf = none) ∧ (Rewind wit5).file ≠ none :=
  ⟨(c5_representation_invariant 1 [Op.write [1, 2]] wit5 (by decide)).1,
   (c5_representation_invariant 1 [Op.write [1, 2]] wit5 (by decide)).2 (by decide)
     [Op.rewind] (Rewind wit5) (by decide)⟩

theorem fileWrite_at_end (c p : List Byte) :
    fileWrite { content := c, pos := c.length } p =
      { content := c ++ p, pos := (c ++ p).length } := by
  unfold fileWrite
  simp

theorem GoodW_New (T : Nat) : GoodW T (New T) :=
  ⟨rfl, Or.inl ⟨rfl, Or.inl rfl⟩⟩

theorem Write_envOk_good {T : Nat} {f : Filebuf} (p : List Byte) (hT : 0 < T) (hG : GoodW T f) :
    ∃ f', Write envOk f p = .ok f' p.length ∧ GoodW T f' ∧
      contents f' = contents f ++ p ∧
      (f'.file = none ↔ (f.file = none ∧ bufLen f + p.length ≤ T)) ∧
      (f'.file = none → f'.buf = some { data := bufData f ++ p, cap := T }) := by
  obtain ⟨M, I, bo, flo, o⟩ := f
  obtain ⟨hM, hrep⟩ := hG
  have hMT : M = T := hM
  subst hMT
  rcases hrep with ⟨hfile, hbuf⟩ | ⟨c, hfile, hbuf⟩
  · have hflo : flo = none := hfile
    subst hflo
    by_cases hlt : M < bufLen ⟨M, I, bo, none, o⟩ + p.length
    · refine ⟨⟨M, I, none, some (fileWrite ⟨bufData ⟨M, I, bo, none, o⟩,
        (bufData ⟨M, I, bo, none, o⟩).length⟩ p), o⟩, ?_, ?_, ?_, ?_, ?_⟩
      · simp only [Write]
        rw [if_pos ⟨hT, hlt⟩, moveToFile_envOk]
      · refine ⟨rfl, Or.inr ⟨bufData ⟨M, I, bo, none, o⟩ ++ p, ?_, rfl⟩⟩
        rw [fileWrite_at_end]
      · show (fileWrite ⟨bufData ⟨M, I, bo, none, o⟩, (bufData ⟨M, I, bo, none, o⟩).length⟩
          p).content = contents ⟨M, I, bo, none, o⟩ ++ p
        rw [fileWrite_at_end]
        rfl
      · constructor
        · intro hn
          simp at hn
        · rintro ⟨_, hle⟩
          omega
      · intro hn
        simp at hn
    · have hle : bufLen ⟨M, I, bo, none, o⟩ + p.length ≤ M := by omega
      rcases hbuf with hbo | ⟨d, hbo, hdlen⟩
      · have hbo' : bo = none := hbo
        subst hbo'
        refine ⟨⟨M, I, some ⟨[] ++ p, M⟩, none, o⟩, ?_, ?_, ?_, ?_, ?_⟩
        · simp only [Write]
          rw [if_neg (by omega)]
          unfold appendBuffer
          dsimp only
          rw [if_pos (by simpa [bufLen, bufData] using hle)]
        · refine ⟨rfl, Or.inl ⟨rfl, Or.inr ⟨[] ++ p, rfl, ?_⟩⟩⟩
          simpa [bufLen, bufData] using hle
        · rfl
        · exact ⟨fun _ => ⟨rfl, hle⟩, fun _ => rfl⟩
        · intro _
          rfl
      · have hbo' : bo = some { data := d, cap := M } := hbo
        subst hbo'
        refine ⟨⟨M, I, some ⟨d ++ p, M⟩, none, o⟩, ?_, ?_, ?_, ?_, ?_⟩
        · simp only [Write]
          rw [if_neg (by omega)]
          unfold appendBuffer
          dsimp only
          rw [if_pos (by simpa [bufLen, bufData] using hle)]
        · refine ⟨rfl, Or.inl ⟨rfl, Or.inr ⟨d ++ p, rfl, ?_⟩⟩⟩
          simpa [bufLen, bufData] using hle
        · rfl
        · exact ⟨fun _ => ⟨rfl, hle⟩, fun _ => rfl⟩
        · intro _
          rfl
  · have hflo : flo = some { content := c, pos := c.length } := hfile
    subst hflo
    have hbo : bo = none := hbuf
    subst hbo
    refine ⟨⟨M, I, none, some (fileWrite ⟨c, c.length⟩ p), o⟩, ?_, ?_, ?_, ?_, ?_⟩
    · simp only [Write]
    · refine ⟨rfl, Or.inr ⟨c ++ p, ?_, rfl⟩⟩
      rw [fileWrite_at_end]
    · show (fileWrite ⟨c, c.length⟩ p).content =
        contents ⟨M, I, none, some ⟨c, c.length⟩, o⟩ ++ p
      rw [fileWrite_at_end]
      rfl
    · constructor
      · intro hn
        simp at hn
      · rintro ⟨hn, _⟩
        simp at hn
    · intro hn
      simp at hn

theorem writeAll_envOk_good {T : Nat} (hT : 0 < T) :
    ∀ (chunks : List (List Byte)) (f : Filebuf), GoodW T f →
    ∃ f', writeAll envOk f chunks = .ok f' (flat chunks).length ∧ GoodW T f' ∧
      contents f' = contents f ++ flat chunks ∧
      (f'.file = none ↔ (f.file = none ∧ bufLen f + (flat chunks).length ≤ T)) := by
  intro chunks
  induction chunks with
  | nil =>
    intro f hG
    refine ⟨f, rfl, hG, by simp [flat], ?_, ?_⟩
    · intro hf
      refine ⟨hf, ?_⟩
      obtain ⟨hM, hrep⟩ := hG
      rcases hrep with ⟨_, hbuf⟩ | ⟨c, hfile, _⟩
      · rcases hbuf with hbo | ⟨d, hbo, hdlen⟩
        · simp [flat, bufLen, bufData, hbo]
        · simp [flat, bufLen, bufData, hbo]
          omega
      · rw [hfile] at hf
        simp at hf
    · rintro ⟨hf, _⟩
      exact hf
  | cons p ps ih =>
    intro f hG
    obtain ⟨f1, hw, hG1, hc1, hiff1, hbuf1⟩ := Write_envOk_good p hT hG
    obtain ⟨f2, hw2, hG2, hc2, hiff2⟩ := ih f1 hG1
    refine ⟨f2, ?_, hG2, ?_, ?_⟩
    · simp only [writeAll, hw, hw2]
      simp [flat]
    · rw [hc2, hc1, flat, List.append_assoc]
    · constructor
      · intro h2
        obtain ⟨h1, hlen1⟩ := hiff2.mp h2
        obtain ⟨hf0, hlen0⟩ := hiff1.mp h1
        refine ⟨hf0, ?_⟩
        have hb1 := hbuf1 h1
        have hbl : bufLen f1 = bufLen f + p.length := by
          simp [bufLen, bufData, hb1]
        simp only [flat, List.length_append]
        omega
      · rintro ⟨hf0, hlen⟩
        simp only [flat, List.length_append] at hlen
        have h1 : f1.file = none := hiff1.mpr ⟨hf0, by omega⟩
        have hb1 := hbuf1 h1
        have hbl : bufLen f1 = bufLen f + p.length := by
          simp [bufLen, bufData, hb1]
        exact hiff2.mpr ⟨h1, by omega⟩

theorem Read_mem_eof {f : Filebuf} {k : Nat} (hfile : f.file = none)
    (h : (bufLen f : Int) ≤ f.off) : Read f k = .ok f [] .eof := by
  obtain ⟨M, I, bo, flo, o⟩ := f
  have hflo : flo = none := hfile
  subst hflo
  simp only [Read]
  rw [if_pos h]

theorem Read_mem_noe {f : Filebuf} {k : Nat} {o : Nat} (hfile : f.file = none)
    (hoff : f.off = (o : Int)) (h : o < bufLen f) :
    Read f k = .ok { f with off := (o : Int) + ((min k (bufLen f - o) : Nat) : Int) }
      (((bufData f).drop o).take (min k (bufLen f - o))) .noe := by
  obtain ⟨M, I, bo, flo, o'⟩ := f
  have hflo : flo = none := hfile
  subst hflo
  have ho' : o' = (o : Int) := hoff
  subst ho'
  have hlen : o < bufLen ⟨M, I, bo, none, (o : Int)⟩ := h
  simp only [Read]
  rw [if_neg (by omega), if_neg (by omega)]
  simp [Int.toNat_natCast]

theorem readAll_mem {k : Nat} (hk : 0 < k) :
    ∀ (fuel : Nat) (f : Filebuf) (o : Nat), f.file = none → f.off = (o : Int) →
    o ≤ bufLen f → bufLen f - o < fuel →
    ∃ g, readAll f k fuel = some ((bufData f).drop o, g) := by
  intro fuel
  induction fuel with
  | zero =>
    intro f o _ _ _ h4
    exact absurd h4 (Nat.not_lt_zero _)
  | succ n ih =>
    intro f o hfile hoff h3 h4
    by_cases ho : bufLen f ≤ o
    · refine ⟨f, ?_⟩
      have hr := Read_mem_eof (k := k) hfile (by rw [hoff]; exact_mod_cast ho)
      simp only [readAll, hr]
      rw [List.drop_of_length_le ho]
    · have hlt : o < bufLen f := by omega
      have hr := Read_mem_noe (k := k) hfile hoff hlt
      have hn1 : 1 ≤ min k (bufLen f - o) := by omega
      have hcast : ({ f with off := (o : Int) + ((min k (bufLen f - o) : Nat) : Int) }
          : Filebuf).off = (((o + min k (bufLen f - o) : Nat)) : Int) := by
        show (o : Int) + ((min k (bufLen f - o) : Nat) : Int) = _
        push_cast
        ring
      obtain ⟨g, hg⟩ := ih { f with off := (o : Int) + ((min k (bufLen f - o) : Nat) : Int) }
        (o + min k (bufLen f - o)) hfile hcast
        (show o + min k (bufLen f - o) ≤ bufLen f by omega)
        (show bufLen f - (o + min k (bufLen f - o)) < n by omega)
      refine ⟨g, ?_⟩
      simp only [readAll, hr, hg]
      have hsplit : (bufData f).drop o =
          ((bufData f).drop o).take (min k (bufLen f - o)) ++
            (bufData f).drop (o + min k (bufLen f - o)) := by
        rw [← List.drop_drop]
        rw [List.take_append_drop]
      have hbd : bufData { f with off := (o : Int) + ((min k (bufLen f - o) : Nat) : Int) } =
          bufData f := rfl
      rw [hbd, ← hsplit]

theorem Read_file_eval {f : Filebuf} {fs : FileSt} {k : Nat} {o : Nat}
    (hfile : f.file = some fs) (hoff : f.off = (o : Int)) :
    Read f k = .ok { f with off := (o : Int) + ((min k (fs.content.length - o) : Nat) : Int) }
      ((fs.content.drop o).take (min k (fs.content.length - o)))
      (if min k (fs.content.length - o) < k then .eof else .noe) := by
  obtain ⟨M, I, bo, flo, o'⟩ := f
  have hflo : flo = some fs := hfile
  subst hflo
  have ho' : o' = (o : Int) := hoff
  subst ho'
  simp only [Read]
  unfold fileReadAt
  rw [if_neg (by omega)]
  simp only [Int.toNat_natCast]
  have hlen : ((fs.content.drop o).take (min k (fs.content.length - o))).length =
      min k (fs.content.length - o) := by
    rw [List.length_take, List.length_drop]
    omega
  rw [hlen]

theorem readAll_file {k : Nat} (hk : 0 < k) :
    ∀ (fuel : Nat) (f : Filebuf) (fs : FileSt) (o : Nat),
    f.file = some fs → f.off = (o : Int) → fs.content.length - o < fuel →
    ∃ g, readAll f k fuel = some (fs.content.drop o, g) := by
  intro fuel
  induction fuel with
  | zero =>
    intro f fs o _ _ h3
    exact absurd h3 (Nat.not_lt_zero _)
  | succ n ih =>
    intro f fs o hfile hoff h3
    have hr := Read_file_eval (k := k) hfile hoff
    by_cases hend : min k (fs.content.length - o) < k
    · refine ⟨{ f with off := (o : Int) + ((min k (fs.content.length - o) : Nat) : Int) }, ?_⟩
      rw [if_pos hend] at hr
      simp only [readAll, hr]
      have htk : (fs.content.drop o).take (min k (fs.content.length - o)) =
          fs.content.drop o := by
        apply List.take_of_length_le
        rw [List.length_drop]
        omega
      rw [htk]
    · rw [if_neg hend] at hr
      have hkle : k ≤ fs.content.length - o := by omega
      have hmin : min k (fs.content.length - o) = k := by omega
      have hcast : ({ f with off := (o : Int) +
          ((min k (fs.content.length - o) : Nat) : Int) } : Filebuf).off =
          (((o + k : Nat)) : Int) := by
        show (o : Int) + ((min k (fs.content.length - o) : Nat) : Int) = _
        rw [hmin]
        push_cast
        ring
      obtain ⟨g, hg⟩ := ih
        { f with off := (o : Int) + ((min k (fs.content.length - o) : Nat) : Int) } fs (o + k)
        hfile hcast (by omega)
      refine ⟨g, ?_⟩
      simp only [readAll, hr, hg]
      have hsplit : fs.content.drop o =
          (fs.content.drop o).take (min k (fs.content.length - o)) ++
            fs.content.drop (o + k) := by
        rw [hmin, ← List.drop_drop, List.take_append_drop]
      rw [← hsplit]

theorem contents_of_file_none {f : Filebuf} (h : f.file = none) : contents f = bufData f := by
  obtain ⟨M, I, bo, flo, o⟩ := f
  have hflo : flo = none := h
  subst hflo
  rfl

theorem contents_of_file_some {f : Filebuf} {fs : FileSt} (h : f.file = some fs) :
    contents f = fs.content := by
  obtain ⟨M, I, bo, flo, o⟩ := f
  have hflo : flo = some fs := h
  subst hflo
  rfl

/-- C1 as stated is refuted at threshold zero: the very first Write of a
nonempty chunk panics in appendBuffer (zero-capacity reslice), so the
written bytes can never be read back. -/
theorem c1_counterexample : writeAll envOk (New 0) [[7, 8]] = .panic := rfl

/-- C1 amended: for every byte sequence (as a list of chunks) and every
positive threshold, writing the chunks via Write succeeds with total
count equal to the total length, and after Rewind, reading back via Read
with any positive destination size until the end-of-stream signal yields
exactly the written bytes — hence the byte count read equals the byte
count written. -/
theorem c1_roundtrip : ∀ (T k : Nat) (chunks : List (List Byte)), 0 < T → 0 < k →
    ∃ f g, writeAll envOk (New T) chunks = .ok f (flat chunks).length ∧
      readAll (Rewind f) k ((flat chunks).length + 1) = some (flat chunks, g) := by
  intro T k chunks hT hk
  obtain ⟨f, hw, hG, hc, _⟩ := writeAll_envOk_good hT chunks (New T) (GoodW_New T)
  have hc' : contents f = flat chunks := by
    rw [hc]
    rfl
  obtain ⟨hM, hrep⟩ := hG
  rcases hrep with ⟨hfile, _⟩ | ⟨c, hfile, _⟩
  · have hbd : bufData f = flat chunks := by
      rw [← contents_of_file_none hfile, hc']
    have hrfile : (Rewind f).file = none := by
      simp [Rewind, hfile]
    have hrlen : bufLen (Rewind f) = (flat chunks).length := by
      show (bufData f).length = _
      rw [hbd]
    obtain ⟨g, hg⟩ := readAll_mem hk ((flat chunks).length + 1) (Rewind f) 0 hrfile rfl
      (Nat.zero_le _) (by omega)
    refine ⟨f, g, hw, ?_⟩
    rw [hg, List.drop_zero]
    show some (bufData f, g) = _
    rw [hbd]
  · have hcc : c = flat chunks := by
      have h1 := contents_of_file_some hfile
      rw [hc'] at h1
      exact h1.symm
    have hrfile : (Rewind f).file = some { content := c, pos := 0 } := by
      simp [Rewind, hfile]
    obtain ⟨g, hg⟩ := readAll_file hk ((flat chunks).length + 1) (Rewind f)
      { content := c, pos := 0 } 0 hrfile rfl (by simp [hcc])
    refine ⟨f, g, hw, ?_⟩
    rw [hg, List.drop_zero]
    show some (c, g) = _
    rw [hcc]

theorem c1_witness :
    ∃ f g, writeAll envOk (New 2) [[1, 2, 3]] = .ok f (flat [[1, 2, 3]]).length ∧
      readAll (Rewind f) 3 ((flat [[1, 2, 3]]).length + 1) = some (flat [[1, 2, 3]], g) :=
  c1_roundtrip 2 3 [[1, 2, 3]] (by decide) (by decide)

/-- C2: from a fresh buffer with positive threshold T, any write sequence
totalling exactly T bytes leaves the buffer memory-backed (no file), and
any write sequence totalling T + 1 bytes leaves it file-backed. -/
theorem c2_threshold_boundary : ∀ (T : Nat) (chunks chunks' : List (List Byte)), 0 < T →
    (flat chunks).length = T → (flat chunks').length = T + 1 →
    (∃ f, writeAll envOk (New T) chunks = .ok f T ∧ f.file = none) ∧
    (∃ f', writeAll envOk (New T) chunks' = .ok f' (T + 1) ∧ f'.file ≠ none) := by
  intro T cs cs' hT h1 h2
  constructor
  · obtain ⟨f, hw, _, _, hiff⟩ := writeAll_envOk_good hT cs (New T) (GoodW_New T)
    rw [h1] at hw
    refine ⟨f, hw, ?_⟩
    apply hiff.mpr
    refine ⟨rfl, ?_⟩
    show bufLen (New T) + (flat cs).length ≤ T
    have hz : bufLen (New T) = 0 := rfl
    omega
  · obtain ⟨f', hw, _, _, hiff⟩ := writeAll_envOk_good hT cs' (New T) (GoodW_New T)
    rw [h2] at hw
    refine ⟨f', hw, ?_⟩
    intro hn
    obtain ⟨_, hle⟩ := hiff.mp hn
    have hz : bufLen (New T) = 0 := rfl
    omega

theorem c2_witness :
    (∃ f, writeAll envOk (New 1) [[9]] = .ok f 1 ∧ f.file = none) ∧
    (∃ f', writeAll envOk (New 1) [[9], [8]] = .ok f' 2 ∧ f'.file ≠ none) :=
  c2_threshold_boundary 1 [[9]] [[9], [8]] (by decide) (by decide) (by decide)
